import Mathlib

/-!
Verification of the bef binary-container subsystem (buffer / allocator /
vector construction protocol / vector reader / span) and of the GPU BLAS
kernel bindings of this repository.

The container implementation itself is not part of the source tree (only
its test surface, `cpp_tests/bef/span_test.cc`, is), so the container is
modelled from the specification: an append-only byte buffer addressed by
offsets, aligned reservations, length-prefixed regions whose slots hold
either inline trivial values (uint32, little-endian, 4 bytes) or 8-byte
addresses of separately allocated nested regions.  The BLAS kernels are
embedded from `backends/gpu/lib/kernels/blas_kernels.cc`.
-/

/-! ## Little-endian byte encoding of fixed-width unsigned integers -/

/-- Encode `n` as `w` little-endian base-256 digits (the spec's fixed-width
unsigned integer fields: length headers and addresses). -/
def encodeLE : Nat → Nat → List Nat
  | 0, _ => []
  | w + 1, n => n % 256 :: encodeLE w (n / 256)

/-- Decode a little-endian base-256 digit list. -/
def decodeLE : List Nat → Nat
  | [] => 0
  | d :: rest => d + 256 * decodeLE rest

theorem encodeLE_length (w n : Nat) : (encodeLE w n).length = w := by
  induction w generalizing n with
  | zero => rfl
  | succ w ih => simp [encodeLE, ih]

theorem decodeLE_encodeLE (w n : Nat) (h : n < 256 ^ w) :
    decodeLE (encodeLE w n) = n := by
  induction w generalizing n with
  | zero => simp [pow_zero] at h; simp [h, encodeLE, decodeLE]
  | succ w ih =>
      have hdiv : n / 256 < 256 ^ w := by
        rw [Nat.div_lt_iff_lt_mul (by norm_num : 0 < 256)]
        calc n < 256 ^ (w + 1) := h
        _ = 256 ^ w * 256 := by ring
      simp only [encodeLE, decodeLE, ih (n / 256) hdiv]
      omega

/-! ## Raw byte-list writes -/

/-- Overwrite the bytes of `l` starting at position `a` with the list `bs`
(out-of-range positions are left unchanged, as `List.set` is). -/
def writeList : List Nat → Nat → List Nat → List Nat
  | l, _, [] => l
  | l, a, x :: xs => writeList (l.set a x) (a + 1) xs

theorem writeList_length (bs l : List Nat) (a : Nat) :
    (writeList l a bs).length = l.length := by
  induction bs generalizing l a with
  | nil => rfl
  | cons x xs ih => simp [writeList, ih]

theorem getD_set (l : List Nat) (i v o : Nat) :
    (l.set i v).getD o 0 = if i = o ∧ i < l.length then v else l.getD o 0 := by
  induction l generalizing i o with
  | nil => simp
  | cons y ys ih =>
      cases i with
      | zero => cases o <;> simp
      | succ i =>
          cases o with
          | zero => simp
          | succ o =>
              have hiff : (i + 1 = o + 1 ∧ i + 1 < ys.length + 1) ↔
                  (i = o ∧ i < ys.length) := by omega
              have hset : ((y :: ys).set (i + 1) v) = y :: ys.set i v := rfl
              rw [hset, List.getD_cons_succ, List.getD_cons_succ, ih i o,
                List.length_cons]
              exact (if_congr hiff rfl rfl).symm

theorem writeList_getD_out (bs l : List Nat) (a o : Nat)
    (h : o < a ∨ a + bs.length ≤ o) :
    (writeList l a bs).getD o 0 = l.getD o 0 := by
  induction bs generalizing l a with
  | nil => rfl
  | cons x xs ih =>
      simp only [writeList]
      rw [ih (l.set a x) (a + 1) (by simp at h ⊢; omega)]
      rw [getD_set]
      have : ¬(a = o ∧ a < l.length) := by simp at h; omega
      simp [this]

theorem writeList_getD_in (bs l : List Nat) (a o : Nat)
    (h1 : a ≤ o) (h2 : o < a + bs.length) (h3 : o < l.length) :
    (writeList l a bs).getD o 0 = bs.getD (o - a) 0 := by
  induction bs generalizing l a with
  | nil => simp at h2; omega
  | cons x xs ih =>
      simp only [writeList]
      rcases Nat.eq_or_lt_of_le h1 with heq | hlt
      · subst heq
        rw [writeList_getD_out xs _ _ _ (Or.inl (by omega))]
        rw [getD_set]
        simp [h3]
      · rw [ih (l.set a x) (a + 1) hlt (by simp at h2 ⊢; omega) (by simpa)]
        have : o - a = (o - (a + 1)) + 1 := by omega
        rw [this, List.getD_cons_succ]

/-! ## Buffer -/

/-- Modelled from the spec: the **Buffer** owns a contiguous growable byte
region (`data`, the logical bytes) and issues stable offset-based
addresses.  `capacity` models the physical backing-store size, which grows
geometrically; growth never changes the meaning of an offset because only
`data` (the logical content) is addressed. -/
structure Buffer where
  data : List Nat
  capacity : Nat

/-- Current logical size of the buffer, which is also the allocator's write
cursor (the current append position). -/
def Buffer.size (b : Buffer) : Nat := b.data.length

/-- The byte stored at offset `o` (0 outside the written region). -/
def Buffer.byteAt (b : Buffer) (o : Nat) : Nat := b.data.getD o 0

/-- Modelled from the spec: `Buffer.Get` resolves an offset to a readable
view of the storage starting at that offset. -/
def Buffer.get (b : Buffer) (a : Nat) : List Nat := b.data.drop a

/-- Round `n` up to the next multiple of `a` (padding inserted by aligned
reservation); `a = 0` means no alignment constraint. -/
def alignUp (n a : Nat) : Nat := if a = 0 then n else (n + a - 1) / a * a

/-- Modelled from the spec: geometric (doubling) growth of the physical
capacity until it covers `need` bytes. -/
def growCap (cap need : Nat) : Nat :=
  if cap < need then growCap (2 * cap + 1) need else cap
termination_by need - cap
decreasing_by simp_wf; omega

/-- Modelled from the spec: `Buffer.Append(byteCount, alignment)` reserves
`byteCount` zero-initialized bytes at the current (aligned) end of storage,
growing the backing capacity geometrically if needed, and returns the
offset at which the reserved region begins. -/
def Buffer.append (b : Buffer) (count align : Nat) : Buffer × Nat :=
  let a := alignUp b.size align
  let newLen := a + count
  (⟨b.data ++ List.replicate (newLen - b.size) 0, growCap b.capacity newLen⟩, a)

/-- Write the byte string `bs` into the buffer starting at offset `a`
(in-place construction into an already reserved region). -/
def Buffer.setBytes (b : Buffer) (a : Nat) (bs : List Nat) : Buffer :=
  ⟨writeList b.data a bs, b.capacity⟩

/-- Read `n` bytes starting at offset `a`. -/
def readBytes (b : Buffer) (a : Nat) : Nat → List Nat
  | 0 => []
  | n + 1 => b.byteAt a :: readBytes b (a + 1) n

theorem alignUp_ge (n a : Nat) : n ≤ alignUp n a := by
  unfold alignUp
  split
  · exact le_refl n
  · rename_i h
    have ha : 0 < a := Nat.pos_of_ne_zero h
    have h1 : (n + a - 1) % a < a := Nat.mod_lt _ ha
    have h2 := Nat.mod_add_div (n + a - 1) a
    rw [Nat.mul_comm]
    omega

theorem alignUp_le (n a : Nat) (h : a ≠ 0) : alignUp n a ≤ n + (a - 1) := by
  unfold alignUp
  simp [h]
  have := Nat.div_mul_le_self (n + a - 1) a
  omega

theorem alignUp_mod (n a : Nat) (h : a ≠ 0) : alignUp n a % a = 0 := by
  unfold alignUp
  simp [h, Nat.mul_mod_left]

/-! ## Basic buffer lemmas -/

theorem Buffer.append_addr (b : Buffer) (count align : Nat) :
    (b.append count align).2 = alignUp b.size align := rfl

theorem Buffer.append_size (b : Buffer) (count align : Nat) :
    (b.append count align).1.size = alignUp b.size align + count := by
  have h := alignUp_ge b.data.length align
  simp only [Buffer.append, Buffer.size, List.length_append,
    List.length_replicate]
  omega

theorem Buffer.byteAt_append (b : Buffer) (count align : Nat) (o : Nat)
    (h : o < b.size) : (b.append count align).1.byteAt o = b.byteAt o := by
  simp only [Buffer.append, Buffer.byteAt]
  exact List.getD_append _ _ _ _ h

theorem Buffer.setBytes_size (b : Buffer) (a : Nat) (bs : List Nat) :
    (b.setBytes a bs).size = b.size := by
  simp [Buffer.setBytes, Buffer.size, writeList_length]

theorem Buffer.byteAt_setBytes_out (b : Buffer) (a : Nat) (bs : List Nat)
    (o : Nat) (h : o < a ∨ a + bs.length ≤ o) :
    (b.setBytes a bs).byteAt o = b.byteAt o := by
  simp only [Buffer.setBytes, Buffer.byteAt]
  exact writeList_getD_out bs b.data a o h

theorem Buffer.byteAt_setBytes_in (b : Buffer) (a : Nat) (bs : List Nat)
    (o : Nat) (h1 : a ≤ o) (h2 : o < a + bs.length) (h3 : o < b.size) :
    (b.setBytes a bs).byteAt o = bs.getD (o - a) 0 := by
  simp only [Buffer.setBytes, Buffer.byteAt]
  exact writeList_getD_in bs b.data a o h1 h2 h3

theorem readBytes_length (b : Buffer) (a n : Nat) :
    (readBytes b a n).length = n := by
  induction n generalizing a with
  | zero => rfl
  | succ n ih => simp [readBytes, ih]

/-- Two buffers that agree byte-for-byte on `[lo, hi)`. -/
def Preserved (bNew bOld : Buffer) (lo hi : Nat) : Prop :=
  ∀ o, lo ≤ o → o < hi → bNew.byteAt o = bOld.byteAt o

theorem Preserved.trans {b1 b2 b3 : Buffer} {lo hi : Nat}
    (h12 : Preserved b1 b2 lo hi) (h23 : Preserved b2 b3 lo hi) :
    Preserved b1 b3 lo hi :=
  fun o h1 h2 => (h12 o h1 h2).trans (h23 o h1 h2)

theorem Preserved.mono {b1 b2 : Buffer} {lo hi lo' hi' : Nat}
    (h : Preserved b1 b2 lo hi) (hlo : lo ≤ lo') (hhi : hi' ≤ hi) :
    Preserved b1 b2 lo' hi' :=
  fun o h1 h2 => h o (le_trans hlo h1) (lt_of_lt_of_le h2 hhi)

theorem readBytes_congr {b1 b2 : Buffer} {lo hi : Nat} (n a : Nat)
    (hp : Preserved b1 b2 lo hi) (h1 : lo ≤ a) (h2 : a + n ≤ hi) :
    readBytes b1 a n = readBytes b2 a n := by
  induction n generalizing a with
  | zero => rfl
  | succ n ih =>
      simp only [readBytes]
      rw [hp a h1 (by omega), ih (a + 1) (by omega) (by omega)]

theorem readBytes_setBytes_self (bs : List Nat) (b : Buffer) (a : Nat)
    (h : a + bs.length ≤ b.size) :
    readBytes (b.setBytes a bs) a bs.length = bs := by
  induction bs generalizing b a with
  | nil => rfl
  | cons x xs ih =>
      have hstep : b.setBytes a (x :: xs) =
          (Buffer.mk (b.data.set a x) b.capacity).setBytes (a + 1) xs := rfl
      simp only [List.length_cons, readBytes, hstep]
      congr 1
      · rw [Buffer.byteAt_setBytes_out _ _ _ _ (Or.inl (by omega))]
        simp only [Buffer.byteAt, getD_set]
        have : a < b.data.length := by
          simp only [List.length_cons, Buffer.size] at h; omega
        simp [this]
      · exact ih ⟨b.data.set a x, b.capacity⟩ (a + 1)
          (by simp only [Buffer.size, List.length_set] at h ⊢
              simp only [List.length_cons] at h; omega)

/-! ## Element types and layout constants -/

/-- Element types storable in a bef `Vector`: the trivial `uint32` leaf type
used by the test surface, and nested (compound) vectors. -/
inductive BefTy where
  | u32 : BefTy
  | vec (elem : BefTy) : BefTy

/-- The mathematical value held by one element of type `t`: a number for the
trivial leaf, a list of nested element values for a compound vector. -/
@[reducible] def ElemVal : BefTy → Type
  | .u32 => Nat
  | .vec t => List (ElemVal t)

/-- Modelled from the spec: width of the fixed-width unsigned length header
of a region. -/
def headerW : Nat := 8

/-- Modelled from the spec: width of a stored address (offset). -/
def addrW : Nat := 8

/-- Modelled from the spec: `slotWidth(T)` — `sizeof(T)` for the trivial
`uint32`, the fixed address width for a compound (nested vector) type. -/
def slotW : BefTy → Nat
  | .u32 => 4
  | .vec _ => addrW

/-- Alignment used for region reservations. -/
def regionAlign : Nat := 8

/-! ## Construction protocol (New / Ctor.ConstructAt) -/

/-- Modelled from the spec: `New<Vector<T>>(allocator, count)` reserves
`headerWidth + count * slotWidth(T)` bytes via the allocator (which
delegates to `Buffer.Append`), writes the `count` header at the start of
the region, and returns the region's address (the `Ctor` binding). -/
def newVec (b : Buffer) (t : BefTy) (count : Nat) : Buffer × Nat :=
  let p := b.append (headerW + count * slotW t) regionAlign
  (p.1.setBytes p.2 (encodeLE headerW count), p.2)

/-- Modelled from the spec: `Ctor<T>.ConstructAt(index, value)` for trivial
`T = uint32` writes the value's bytes directly into slot `index` of the
region at address `a`. -/
def constructAtTrivial (b : Buffer) (a i v : Nat) : Buffer :=
  b.setBytes (a + headerW + i * slotW .u32) (encodeLE (slotW .u32) v)

/-- Modelled from the spec: `Ctor<Vector<U>>.ConstructAt(index, subCount)`
for compound element type recursively invokes `New<Vector<U>>` to allocate
a new, separate region, writes that region's address into the parent's
slot `index`, and returns the nested region's address (the nested `Ctor`). -/
def constructAtVec (u : BefTy) (b : Buffer) (a i count : Nat) : Buffer × Nat :=
  let p := newVec b u count
  (p.1.setBytes (a + headerW + i * addrW) (encodeLE addrW p.2), p.2)

/-- Fill the trivial slots of a `Vector<uint32>` region at address `a`,
starting from slot `i` (the per-index `ConstructAt` loop of the test). -/
def fillU32 : Buffer → Nat → Nat → List Nat → Buffer
  | b, _, _, [] => b
  | b, a, i, v :: rest => fillU32 (constructAtTrivial b a i v) a (i + 1) rest

/-- Fill the compound slots of a `Vector<Vector<U>>` region at address `a`
from slot `i` on: each step performs the compound `ConstructAt` (allocate
the child region, record its address in the parent slot) and then lets
`fillChild` construct the child region's own slots. -/
def fillVecLoop (u : BefTy)
    (fillChild : Buffer → Nat → List (ElemVal u) → Buffer) :
    Buffer → Nat → Nat → List (List (ElemVal u)) → Buffer
  | b, _, _, [] => b
  | b, a, i, v :: rest =>
      let p := constructAtVec u b a i v.length
      fillVecLoop u fillChild (fillChild p.1 p.2 v) a (i + 1) rest

/-- Construct every slot of an already reserved region of element type `t`
at address `a` from the element values `vs` (slot order, each exactly once,
as the construction discipline prescribes). -/
def fillRegion : (t : BefTy) → Buffer → Nat → List (ElemVal t) → Buffer
  | .u32, b, a, vs => fillU32 b a 0 vs
  | .vec u, b, a, vs =>
      fillVecLoop u (fun b' a' v => fillRegion u b' a' v) b a 0 vs

/-- Build a whole `Vector<t>` tree into the buffer: `New` with the element
count, then construct each slot in index order; returns the new buffer and
the root region's address. -/
def construct (t : BefTy) (b : Buffer) (vs : List (ElemVal t)) :
    Buffer × Nat :=
  let p := newVec b t vs.length
  (fillRegion t p.1 p.2 vs, p.2)

/-! ## Reader views (Vector / Span) -/

/-- Modelled from the spec: the reader view's `size()` — decode the length
header stored at the region's address. -/
def vecSize (b : Buffer) (a : Nat) : Nat := decodeLE (readBytes b a headerW)

/-- Modelled from the spec: decode the whole `Vector<t>` region rooted at
address `a` — the sequence of its `size()` elements, each resolved at
offset `headerWidth + index * slotWidth(t)` from the region address
(inline value bytes for the trivial leaf, a stored address of a nested
region for compound elements). -/
def readRegion : (t : BefTy) → Buffer → Nat → List (ElemVal t)
  | .u32, b, a =>
      (List.range (vecSize b a)).map fun i =>
        decodeLE (readBytes b (a + headerW + i * slotW .u32) (slotW .u32))
  | .vec u, b, a =>
      (List.range (vecSize b a)).map fun i =>
        readRegion u b
          (decodeLE (readBytes b (a + headerW + i * slotW (.vec u)) addrW))

/-- Modelled from the spec: `Span<t>::operator[]` — checkedly decode the
element in slot `i`, resolved at `headerWidth + i * slotWidth(t)` from the
region address (a nested element materializes the child view on demand). -/
def spanGet : (t : BefTy) → Buffer → Nat → Nat → ElemVal t
  | .u32, b, a, i =>
      decodeLE (readBytes b (a + headerW + i * slotW .u32) (slotW .u32))
  | .vec u, b, a, i =>
      readRegion u b
        (decodeLE (readBytes b (a + headerW + i * slotW (.vec u)) addrW))

/-- Modelled from the spec: forward iteration over a `Span<t>` from
`begin()` to `end()` — the element sequence in index order (empty exactly
when `begin() == end()`). -/
def spanToList (t : BefTy) (b : Buffer) (a : Nat) : List (ElemVal t) :=
  readRegion t b a

/-! ## Count (shape) trees for the nesting claim -/

/-- A tree of element counts: the count of a region together with the count
trees of its nested child regions (empty for a trivial-element region). -/
inductive CTree where
  | mk (count : Nat) (children : List CTree)

/-- The counts passed to `New`/`ConstructAt` while constructing `vs`: the
outer count is `vs.length`, and each compound element contributes the count
tree of its own sub-construction. -/
def countsOfVal : (t : BefTy) → List (ElemVal t) → CTree
  | .u32, vs => .mk vs.length []
  | .vec u, vs => .mk vs.length (vs.map fun v => countsOfVal u v)

/-- The reader-view sizes at every level: `size()` of the region at `a`,
and recursively the sizes of every nested region it points to. -/
def readCounts : (t : BefTy) → Buffer → Nat → CTree
  | .u32, b, a => .mk (vecSize b a) []
  | .vec u, b, a =>
      .mk (vecSize b a)
        ((List.range (vecSize b a)).map fun i =>
          readCounts u b
            (decodeLE (readBytes b (a + headerW + i * slotW (.vec u)) addrW)))

/-- All trivial leaves of `vs` are in the `uint32` value range. -/
def valsOkb : (t : BefTy) → List (ElemVal t) → Bool
  | .u32, vs => vs.all fun v => decide (v < 2 ^ 32)
  | .vec u, vs => vs.all fun v => valsOkb u v

/-! ## Allocator reservation sequences (for the growth / cursor claims) -/

/-- Modelled from the spec: `Allocator.Reserve(byteCount, alignment)`
delegates to `Buffer.Append`, inserting padding so the returned address
satisfies the alignment. -/
def reserve (b : Buffer) (count align : Nat) : Buffer × Nat :=
  b.append count align

/-- Run a sequence of plain `Append` calls (count, alignment) on a buffer. -/
def appendAll (b : Buffer) (ops : List (Nat × Nat)) : Buffer :=
  ops.foldl (fun bb op => (bb.append op.1 op.2).1) b

/-- Run a sequence of reservations, returning the final buffer and, per
reservation, the returned address together with the requested byte count
and alignment. -/
def reserveAll (b : Buffer) : List (Nat × Nat) → Buffer × List (Nat × Nat × Nat)
  | [] => (b, [])
  | (n, al) :: rest =>
      let p := reserve b n al
      let q := reserveAll p.1 rest
      (q.1, (p.2, n, al) :: q.2)

/-- The reserved ranges `[addr, addr + count)` are issued at monotonically
non-decreasing positions starting no earlier than `lo`, each range ending
before the next begins. -/
def chainOk : Nat → List (Nat × Nat × Nat) → Prop
  | _, [] => True
  | lo, r :: rest => lo ≤ r.1 ∧ chainOk (r.1 + r.2.1) rest

/-! ## Frame lemmas for the construction protocol -/

theorem newVec_addr (b : Buffer) (t : BefTy) (c : Nat) :
    (newVec b t c).2 = alignUp b.size regionAlign := rfl

theorem newVec_addr_ge (b : Buffer) (t : BefTy) (c : Nat) :
    b.size ≤ (newVec b t c).2 := by
  rw [newVec_addr]; exact alignUp_ge _ _

theorem newVec_size (b : Buffer) (t : BefTy) (c : Nat) :
    (newVec b t c).1.size =
      alignUp b.size regionAlign + (headerW + c * slotW t) := by
  simp [newVec, Buffer.setBytes_size, Buffer.append_size]

theorem newVec_headerBytes (b : Buffer) (t : BefTy) (c : Nat) :
    readBytes (newVec b t c).1 (newVec b t c).2 headerW = encodeLE headerW c := by
  have hl := encodeLE_length headerW c
  have hsz := Buffer.append_size b (headerW + c * slotW t) regionAlign
  have h := readBytes_setBytes_self (encodeLE headerW c)
    (b.append (headerW + c * slotW t) regionAlign).1
    (b.append (headerW + c * slotW t) regionAlign).2
    (by rw [hl, Buffer.append_addr, hsz]; omega)
  rw [hl] at h
  exact h

theorem newVec_byteAt (b : Buffer) (t : BefTy) (c o : Nat) (h : o < b.size) :
    (newVec b t c).1.byteAt o = b.byteAt o := by
  have ha : b.size ≤ alignUp b.size regionAlign := alignUp_ge _ _
  show ((b.append (headerW + c * slotW t) regionAlign).1.setBytes
      (alignUp b.size regionAlign) (encodeLE headerW c)).byteAt o = _
  rw [Buffer.byteAt_setBytes_out _ _ _ _ (Or.inl (by omega))]
  exact Buffer.byteAt_append b _ _ o h

theorem constructAtVec_addr (u : BefTy) (b : Buffer) (a i c : Nat) :
    (constructAtVec u b a i c).2 = alignUp b.size regionAlign := rfl

theorem constructAtVec_size (u : BefTy) (b : Buffer) (a i c : Nat) :
    (constructAtVec u b a i c).1.size =
      alignUp b.size regionAlign + (headerW + c * slotW u) := by
  simp [constructAtVec, Buffer.setBytes_size, newVec_size]

theorem constructAtVec_byteAt (u : BefTy) (b : Buffer) (a i c o : Nat)
    (hb : o < b.size)
    (hs : o < a + headerW + i * addrW ∨ a + headerW + i * addrW + addrW ≤ o) :
    (constructAtVec u b a i c).1.byteAt o = b.byteAt o := by
  show ((newVec b u c).1.setBytes (a + headerW + i * addrW)
      (encodeLE addrW (newVec b u c).2)).byteAt o = _
  rw [Buffer.byteAt_setBytes_out _ _ _ _
    (by rw [encodeLE_length]; omega)]
  exact newVec_byteAt b u c o hb

theorem fillU32_size (vs : List Nat) (b : Buffer) (a i : Nat) :
    (fillU32 b a i vs).size = b.size := by
  induction vs generalizing b i with
  | nil => rfl
  | cons v rest ih =>
      show (fillU32 (constructAtTrivial b a i v) a (i + 1) rest).size = _
      rw [ih, constructAtTrivial, Buffer.setBytes_size]

theorem fillU32_frame (vs : List Nat) (b : Buffer) (a i o : Nat)
    (h : o < a + headerW + i * slotW .u32 ∨
      a + headerW + (i + vs.length) * slotW .u32 ≤ o) :
    (fillU32 b a i vs).byteAt o = b.byteAt o := by
  have hs : slotW .u32 = 4 := rfl
  induction vs generalizing b i with
  | nil => rfl
  | cons v rest ih =>
      show (fillU32 (constructAtTrivial b a i v) a (i + 1) rest).byteAt o = _
      rw [ih (constructAtTrivial b a i v) (i + 1)
        (by rw [hs] at h ⊢; simp only [List.length_cons] at h; omega)]
      rw [constructAtTrivial, Buffer.byteAt_setBytes_out]
      rw [encodeLE_length, hs] at *
      simp only [List.length_cons] at h
      omega

theorem fillVecLoop_size_mono (u : BefTy)
    (fc : Buffer → Nat → List (ElemVal u) → Buffer)
    (hcm : ∀ b a vs, b.size ≤ (fc b a vs).size) :
    ∀ (rest : List (List (ElemVal u))) (b : Buffer) (a i : Nat),
      b.size ≤ (fillVecLoop u fc b a i rest).size := by
  intro rest
  induction rest with
  | nil => intro b a i; exact le_refl _
  | cons v rest ih =>
      intro b a i
      show b.size ≤ (fillVecLoop u fc
        (fc (constructAtVec u b a i v.length).1
          (constructAtVec u b a i v.length).2 v) a (i + 1) rest).size
      refine le_trans ?_ (ih _ a (i + 1))
      refine le_trans ?_ (hcm _ _ _)
      rw [constructAtVec_size]
      have := alignUp_ge b.size regionAlign
      omega

theorem fillVecLoop_frame (u : BefTy)
    (fc : Buffer → Nat → List (ElemVal u) → Buffer)
    (hcm : ∀ b a vs, b.size ≤ (fc b a vs).size)
    (hcf : ∀ b a vs o, o < b.size → o < a + headerW →
      (fc b a vs).byteAt o = b.byteAt o) :
    ∀ (rest : List (List (ElemVal u))) (b : Buffer) (a i o : Nat),
      o < b.size →
      (o < a + headerW + i * addrW ∨
        a + headerW + (i + rest.length) * addrW ≤ o) →
      (fillVecLoop u fc b a i rest).byteAt o = b.byteAt o := by
  intro rest
  induction rest with
  | nil => intro b a i o _ _; rfl
  | cons v rest ih =>
      intro b a i o hb hs
      simp only [List.length_cons] at hs
      simp only [addrW, headerW] at hs
      show (fillVecLoop u fc
        (fc (constructAtVec u b a i v.length).1
          (constructAtVec u b a i v.length).2 v) a (i + 1) rest).byteAt o = _
      have hsz1 := constructAtVec_size u b a i v.length
      have hal := alignUp_ge b.size regionAlign
      have hb1 : o < (constructAtVec u b a i v.length).1.size := by
        rw [hsz1]; omega
      have hb2 : o < (fc (constructAtVec u b a i v.length).1
          (constructAtVec u b a i v.length).2 v).size :=
        lt_of_lt_of_le hb1 (hcm _ _ _)
      rw [ih _ a (i + 1) o hb2 (by simp only [addrW, headerW]; omega)]
      rw [hcf _ _ _ o hb1
        (by rw [constructAtVec_addr]; simp only [headerW]; omega)]
      exact constructAtVec_byteAt u b a i v.length o hb
        (by simp only [addrW, headerW]; omega)

theorem fillRegion_size_mono :
    ∀ (t : BefTy) (vs : List (ElemVal t)) (b : Buffer) (a : Nat),
      b.size ≤ (fillRegion t b a vs).size := by
  intro t
  induction t with
  | u32 =>
      intro vs b a
      show b.size ≤ (fillU32 b a 0 vs).size
      rw [fillU32_size]
  | vec u ih =>
      intro vs b a
      exact fillVecLoop_size_mono u _ (fun b' a' v => ih v b' a') vs b a 0

theorem fillRegion_frame :
    ∀ (t : BefTy) (vs : List (ElemVal t)) (b : Buffer) (a o : Nat),
      o < b.size → o < a + headerW →
      (fillRegion t b a vs).byteAt o = b.byteAt o := by
  intro t
  induction t with
  | u32 =>
      intro vs b a o _ ho
      exact fillU32_frame vs b a 0 o (Or.inl (by omega))
  | vec u ih =>
      intro vs b a o hb ho
      exact fillVecLoop_frame u _ (fun b' a' v => fillRegion_size_mono u v b' a')
        (fun b' a' v o' h1 h2 => ih v b' a' o' h1 h2) vs b a 0 o hb
        (Or.inl (by omega))

/-! ## Readback lemmas -/

theorem range_map_eq_of_getD {α : Type} (vs : List α) (d : α) (f : Nat → α)
    (h : ∀ j, j < vs.length → f j = vs.getD j d) :
    (List.range vs.length).map f = vs := by
  induction vs generalizing f with
  | nil => rfl
  | cons x xs ih =>
      rw [List.length_cons, List.range_succ_eq_map, List.map_cons, List.map_map]
      congr 1
      · exact h 0 (by simp)
      · exact ih (f ∘ Nat.succ) fun j hj => by
          have := h (j + 1) (by simpa using Nat.succ_lt_succ hj)
          simpa [List.getD_cons_succ] using this

theorem slotW_ge (t : BefTy) : 4 ≤ slotW t := by
  cases t <;> simp [slotW, addrW]

theorem fillU32_read (rest : List Nat) :
    ∀ (b : Buffer) (a i : Nat),
      a + headerW + (i + rest.length) * slotW .u32 ≤ b.size →
      ∀ j, j < rest.length →
        readBytes (fillU32 b a i rest) (a + headerW + (i + j) * slotW .u32)
          (slotW .u32) = encodeLE (slotW .u32) (rest.getD j 0) := by
  induction rest with
  | nil => intro b a i _ j hj; simp at hj
  | cons v rest ih =>
      intro b a i hreg j hj
      simp only [List.length_cons, slotW, headerW] at hreg
      show readBytes (fillU32 (constructAtTrivial b a i v) a (i + 1) rest)
        (a + headerW + (i + j) * slotW .u32) (slotW .u32) = _
      cases j with
      | zero =>
          have hslot : readBytes (constructAtTrivial b a i v)
              (a + headerW + i * slotW .u32) (slotW .u32) =
              encodeLE (slotW .u32) v := by
            have hl := encodeLE_length (slotW .u32) v
            have h := readBytes_setBytes_self (encodeLE (slotW .u32) v) b
              (a + headerW + i * slotW .u32)
              (by simp only [encodeLE_length, slotW, headerW]; omega)
            rw [hl] at h
            exact h
          have hp : Preserved
              (fillU32 (constructAtTrivial b a i v) a (i + 1) rest)
              (constructAtTrivial b a i v)
              (a + headerW + i * slotW .u32)
              (a + headerW + i * slotW .u32 + slotW .u32) :=
            fun o h1 h2 => fillU32_frame rest _ a (i + 1) o
              (Or.inl (by simp only [slotW, headerW] at h1 h2 ⊢; omega))
          rw [readBytes_congr (slotW .u32) _ hp
            (by simp only [Nat.add_zero, slotW, headerW]; omega)
            (by simp only [Nat.add_zero, slotW, headerW]; omega)]
          simpa using hslot
      | succ j =>
          have hoff : i + (j + 1) = (i + 1) + j := by omega
          rw [hoff, List.getD_cons_succ]
          exact ih (constructAtTrivial b a i v) a (i + 1)
            (by rw [constructAtTrivial, Buffer.setBytes_size]
                simp only [slotW, headerW]; omega) j (by simpa using hj)

theorem fillVecLoop_read (u : BefTy)
    (hread : ∀ (vs : List (ElemVal u)) (b : Buffer) (a : Nat) (bfin : Buffer),
      valsOkb u vs = true →
      a + headerW + vs.length * slotW u ≤ b.size →
      readBytes b a headerW = encodeLE headerW vs.length →
      (fillRegion u b a vs).size ≤ 2 ^ 64 →
      Preserved bfin (fillRegion u b a vs) a (fillRegion u b a vs).size →
      readRegion u bfin a = vs) :
    ∀ (rest : List (List (ElemVal u))) (b : Buffer) (a i : Nat) (bfin : Buffer),
      rest.all (fun v => valsOkb u v) = true →
      a + headerW + (i + rest.length) * addrW ≤ b.size →
      (fillVecLoop u (fun b' a' v => fillRegion u b' a' v) b a i rest).size
        ≤ 2 ^ 64 →
      Preserved bfin
        (fillVecLoop u (fun b' a' v => fillRegion u b' a' v) b a i rest)
        (a + headerW + i * addrW)
        (fillVecLoop u (fun b' a' v => fillRegion u b' a' v) b a i rest).size →
      ∀ j, j < rest.length →
        readRegion u bfin
          (decodeLE (readBytes bfin (a + headerW + (i + j) * addrW) addrW)) =
          rest.getD j [] := by
  have hcm : ∀ (b' : Buffer) (a' : Nat) (vs' : List (ElemVal u)),
      b'.size ≤ (fillRegion u b' a' vs').size :=
    fun b' a' vs' => fillRegion_size_mono u vs' b' a'
  have hcf : ∀ (b' : Buffer) (a' : Nat) (vs' : List (ElemVal u)) (o' : Nat),
      o' < b'.size → o' < a' + headerW →
      (fillRegion u b' a' vs').byteAt o' = b'.byteAt o' :=
    fun b' a' vs' o' h1 h2 => fillRegion_frame u vs' b' a' o' h1 h2
  intro rest
  induction rest with
  | nil => intro b a i bfin _ _ _ _ j hj; simp at hj
  | cons v rest ih =>
      intro b a i bfin hall hreg hsz hpres j hj
      have hallv : valsOkb u v = true ∧
          rest.all (fun v => valsOkb u v) = true := by
        simpa [List.all_cons, Bool.and_eq_true] using hall
      simp only [List.length_cons] at hreg
      have hstep : fillVecLoop u (fun b' a' v => fillRegion u b' a' v)
          b a i (v :: rest) =
          fillVecLoop u (fun b' a' v => fillRegion u b' a' v)
            (fillRegion u
              ((newVec b u v.length).1.setBytes (a + headerW + i * addrW)
                (encodeLE addrW (newVec b u v.length).2))
              (newVec b u v.length).2 v)
            a (i + 1) rest := rfl
      rw [hstep] at hsz hpres
      -- facts about the freshly allocated child region
      have hca : (newVec b u v.length).2 = alignUp b.size regionAlign :=
        newVec_addr b u v.length
      have hca_ge : b.size ≤ (newVec b u v.length).2 := newVec_addr_ge b u v.length
      have hN1 : (newVec b u v.length).1.size =
          alignUp b.size regionAlign + (headerW + v.length * slotW u) :=
        newVec_size b u v.length
      have hP1 : ((newVec b u v.length).1.setBytes (a + headerW + i * addrW)
          (encodeLE addrW (newVec b u v.length).2)).size =
          (newVec b u v.length).1.size := Buffer.setBytes_size _ _ _
      have hmono2 : ((newVec b u v.length).1.setBytes (a + headerW + i * addrW)
          (encodeLE addrW (newVec b u v.length).2)).size ≤
          (fillRegion u
            ((newVec b u v.length).1.setBytes (a + headerW + i * addrW)
              (encodeLE addrW (newVec b u v.length).2))
            (newVec b u v.length).2 v).size :=
        fillRegion_size_mono u v _ _
      have hmono3 : (fillRegion u
            ((newVec b u v.length).1.setBytes (a + headerW + i * addrW)
              (encodeLE addrW (newVec b u v.length).2))
            (newVec b u v.length).2 v).size ≤
          (fillVecLoop u (fun b' a' v => fillRegion u b' a' v)
            (fillRegion u
              ((newVec b u v.length).1.setBytes (a + headerW + i * addrW)
                (encodeLE addrW (newVec b u v.length).2))
              (newVec b u v.length).2 v)
            a (i + 1) rest).size :=
        fillVecLoop_size_mono u _ hcm rest _ a (i + 1)
      cases j with
      | zero =>
          simp only [Nat.add_zero, List.getD_cons_zero]
          -- the parent slot bytes hold the child region's address
          have hA1 : readBytes
              ((newVec b u v.length).1.setBytes (a + headerW + i * addrW)
                (encodeLE addrW (newVec b u v.length).2))
              (a + headerW + i * addrW) addrW =
              encodeLE addrW (newVec b u v.length).2 := by
            have hl := encodeLE_length addrW (newVec b u v.length).2
            have h := readBytes_setBytes_self
              (encodeLE addrW (newVec b u v.length).2)
              (newVec b u v.length).1 (a + headerW + i * addrW)
              (by rw [hl, hN1]
                  have := alignUp_ge b.size regionAlign
                  simp only [addrW, headerW] at hreg ⊢
                  omega)
            rw [hl] at h
            exact h
          have hA2 : Preserved
              (fillRegion u
                ((newVec b u v.length).1.setBytes (a + headerW + i * addrW)
                  (encodeLE addrW (newVec b u v.length).2))
                (newVec b u v.length).2 v)
              ((newVec b u v.length).1.setBytes (a + headerW + i * addrW)
                (encodeLE addrW (newVec b u v.length).2))
              (a + headerW + i * addrW) (a + headerW + i * addrW + addrW) :=
            fun o h1 h2 => hcf _ _ _ o
              (by rw [hP1, hN1]
                  have := alignUp_ge b.size regionAlign
                  simp only [addrW, headerW] at hreg h2 ⊢
                  omega)
              (by rw [hca]
                  have := alignUp_ge b.size regionAlign
                  simp only [addrW, headerW] at hreg h2 ⊢
                  omega)
          have hA3 : Preserved
              (fillVecLoop u (fun b' a' v => fillRegion u b' a' v)
                (fillRegion u
                  ((newVec b u v.length).1.setBytes (a + headerW + i * addrW)
                    (encodeLE addrW (newVec b u v.length).2))
                  (newVec b u v.length).2 v)
                a (i + 1) rest)
              (fillRegion u
                ((newVec b u v.length).1.setBytes (a + headerW + i * addrW)
                  (encodeLE addrW (newVec b u v.length).2))
                (newVec b u v.length).2 v)
              (a + headerW + i * addrW) (a + headerW + i * addrW + addrW) :=
            fun o h1 h2 => fillVecLoop_frame u _ hcm hcf rest _ a (i + 1) o
              (by have := alignUp_ge b.size regionAlign
                  rw [hP1, hN1] at hmono2
                  refine lt_of_lt_of_le ?_ hmono2
                  simp only [addrW, headerW] at hreg h2 ⊢
                  omega)
              (Or.inl (by simp only [addrW, headerW] at h2 ⊢; omega))
          have hA4 : Preserved bfin
              (fillVecLoop u (fun b' a' v => fillRegion u b' a' v)
                (fillRegion u
                  ((newVec b u v.length).1.setBytes (a + headerW + i * addrW)
                    (encodeLE addrW (newVec b u v.length).2))
                  (newVec b u v.length).2 v)
                a (i + 1) rest)
              (a + headerW + i * addrW) (a + headerW + i * addrW + addrW) :=
            hpres.mono (le_refl _)
              (by refine le_trans ?_ (le_trans hmono2 hmono3)
                  rw [hP1, hN1]
                  have := alignUp_ge b.size regionAlign
                  simp only [addrW, headerW] at hreg ⊢
                  omega)
          have hA : readBytes bfin (a + headerW + i * addrW) addrW =
              encodeLE addrW (newVec b u v.length).2 := by
            rw [readBytes_congr addrW _ hA4 (le_refl _) (le_refl _),
              readBytes_congr addrW _ hA3 (le_refl _) (le_refl _),
              readBytes_congr addrW _ hA2 (le_refl _) (le_refl _), hA1]
          rw [hA]
          -- the stored address decodes to itself
          have hca64 : (newVec b u v.length).2 < 2 ^ 64 := by
            have h1 : (newVec b u v.length).1.size ≤ 2 ^ 64 := by
              refine le_trans ?_ (le_trans hmono3 hsz)
              rw [hP1] at hmono2
              exact hmono2
            rw [hN1] at h1
            rw [hca]
            simp only [headerW] at h1
            omega
          have hdec : decodeLE (encodeLE addrW (newVec b u v.length).2) =
              (newVec b u v.length).2 :=
            decodeLE_encodeLE addrW _
              (by rw [show (256:Nat) ^ addrW = 2 ^ 64 by norm_num [addrW]]
                  exact hca64)
          rw [hdec]
          -- the child region reads back as v
          refine hread v
            ((newVec b u v.length).1.setBytes (a + headerW + i * addrW)
              (encodeLE addrW (newVec b u v.length).2))
            (newVec b u v.length).2 bfin hallv.1 ?_ ?_ ?_ ?_
          · rw [hP1, hN1, hca]; omega
          · -- the header written by New is untouched by the parent-slot write
            have hout : Preserved
                ((newVec b u v.length).1.setBytes (a + headerW + i * addrW)
                  (encodeLE addrW (newVec b u v.length).2))
                (newVec b u v.length).1
                (newVec b u v.length).2 ((newVec b u v.length).2 + headerW) :=
              fun o h1 h2 => Buffer.byteAt_setBytes_out _ _ _ o
                (Or.inr (by rw [encodeLE_length]
                            rw [hca] at h1
                            have := alignUp_ge b.size regionAlign
                            simp only [addrW, headerW] at hreg h1 ⊢
                            omega))
            rw [readBytes_congr headerW _ hout (le_refl _) (le_refl _)]
            exact newVec_headerBytes b u v.length
          · exact le_trans hmono3 hsz
          · refine Preserved.trans (hpres.mono ?_ ?_) ?_
            · have := alignUp_ge b.size regionAlign
              rw [hca]
              simp only [addrW, headerW] at hreg ⊢
              omega
            · exact hmono3
            · intro o h1 h2
              refine fillVecLoop_frame u _ hcm hcf rest _ a (i + 1) o h2
                (Or.inr ?_)
              rw [hca] at h1
              have := alignUp_ge b.size regionAlign
              simp only [List.length_cons, addrW, headerW] at hreg ⊢
              omega
      | succ j =>
          have hoff : i + (j + 1) = (i + 1) + j := by omega
          rw [hoff, List.getD_cons_succ]
          refine ih _ a (i + 1) bfin hallv.2 ?_ hsz (hpres.mono ?_ (le_refl _))
            j (by simpa using hj)
          · refine le_trans ?_ (le_trans hca_ge ?_)
            · simp only [addrW, headerW] at hreg ⊢; omega
            · rw [← hca] at *
              refine le_trans ?_ hmono2
              rw [hP1, hN1, hca]
              have := alignUp_ge b.size regionAlign
              simp only [headerW]
              omega
          · simp only [addrW, headerW]; omega

theorem fillRegion_read :
    ∀ (t : BefTy) (vs : List (ElemVal t)) (b : Buffer) (a : Nat) (bfin : Buffer),
      valsOkb t vs = true →
      a + headerW + vs.length * slotW t ≤ b.size →
      readBytes b a headerW = encodeLE headerW vs.length →
      (fillRegion t b a vs).size ≤ 2 ^ 64 →
      Preserved bfin (fillRegion t b a vs) a (fillRegion t b a vs).size →
      readRegion t bfin a = vs := by
  intro t
  induction t with
  | u32 =>
      intro vs b a bfin hok hreg hhd hsz hpres
      simp only [slotW, headerW] at hreg
      have hfsz : (fillRegion .u32 b a vs).size = b.size := fillU32_size vs b a 0
      have hb64 : b.size ≤ 2 ^ 64 := by rw [← hfsz]; exact hsz
      have hlen64 : vs.length < 2 ^ 64 := by omega
      have hhdfin : readBytes bfin a headerW = encodeLE headerW vs.length := by
        have hp1 : Preserved (fillRegion .u32 b a vs) b a (a + headerW) :=
          fun o h1 h2 => fillU32_frame vs b a 0 o
            (Or.inl (by simp only [slotW, headerW] at h2 ⊢; omega))
        rw [readBytes_congr headerW a
            (hpres.mono (le_refl _)
              (by rw [hfsz]; simp only [headerW]; omega))
            (le_refl _) (le_refl _),
          readBytes_congr headerW a hp1 (le_refl _) (le_refl _)]
        exact hhd
      have hlen : vecSize bfin a = vs.length := by
        rw [vecSize, hhdfin]
        exact decodeLE_encodeLE headerW _
          (by rw [show (256:Nat) ^ headerW = 2 ^ 64 by norm_num [headerW]]
              exact hlen64)
      show (List.range (vecSize bfin a)).map _ = vs
      rw [hlen]
      refine range_map_eq_of_getD vs 0 _ fun j hj => ?_
      have hslot := fillU32_read vs b a 0
        (by simp only [slotW, headerW]; omega) j hj
      have hwin : Preserved bfin (fillRegion .u32 b a vs)
          (a + headerW + j * slotW .u32)
          (a + headerW + j * slotW .u32 + slotW .u32) :=
        hpres.mono (by simp only [slotW, headerW]; omega)
          (by rw [hfsz]; simp only [slotW, headerW]; omega)
      rw [readBytes_congr (slotW .u32) _ hwin (le_refl _) (le_refl _)]
      have hz : a + headerW + j * slotW .u32 = a + headerW + (0 + j) * slotW .u32 := by
        simp
      rw [hz, show fillRegion BefTy.u32 b a vs = fillU32 b a 0 vs from rfl,
        hslot]
      refine decodeLE_encodeLE (slotW .u32) _ ?_
      simp only [valsOkb, List.all_eq_true] at hok
      have hmem : vs.getD j 0 ∈ vs := by
        rw [List.getD_eq_getElem vs 0 hj]
        exact List.getElem_mem hj
      have := hok _ hmem
      rw [show (256:Nat) ^ slotW .u32 = 2 ^ 32 by norm_num [slotW]]
      exact of_decide_eq_true this
  | vec u ih =>
      intro vs b a bfin hok hreg hhd hsz hpres
      simp only [slotW, addrW, headerW] at hreg
      have hmono : b.size ≤ (fillRegion (.vec u) b a vs).size :=
        fillRegion_size_mono _ vs b a
      have hb64 : b.size ≤ 2 ^ 64 := le_trans hmono hsz
      have hlen64 : vs.length < 2 ^ 64 := by omega
      have hhdfin : readBytes bfin a headerW = encodeLE headerW vs.length := by
        have hp1 : Preserved (fillRegion (.vec u) b a vs) b a (a + headerW) :=
          fun o h1 h2 => fillVecLoop_frame u _
            (fun b' a' vs' => fillRegion_size_mono u vs' b' a')
            (fun b' a' vs' o' hh1 hh2 => fillRegion_frame u vs' b' a' o' hh1 hh2)
            vs b a 0 o (by simp only [headerW] at h2; omega)
            (Or.inl (by simp only [addrW, headerW] at h2 ⊢; omega))
        rw [readBytes_congr headerW a
            (hpres.mono (le_refl _)
              (by refine le_trans ?_ hmono; simp only [headerW]; omega))
            (le_refl _) (le_refl _),
          readBytes_congr headerW a hp1 (le_refl _) (le_refl _)]
        exact hhd
      have hlen : vecSize bfin a = vs.length := by
        rw [vecSize, hhdfin]
        exact decodeLE_encodeLE headerW _
          (by rw [show (256:Nat) ^ headerW = 2 ^ 64 by norm_num [headerW]]
              exact hlen64)
      show (List.range (vecSize bfin a)).map _ = vs
      rw [hlen]
      refine range_map_eq_of_getD vs [] _ fun j hj => ?_
      have hj' := fillVecLoop_read u ih vs b a 0 bfin
        (by simpa [valsOkb] using hok)
        (by simp only [addrW, headerW]; omega)
        hsz
        (hpres.mono (by simp only [addrW, headerW]; omega) (le_refl _))
        j hj
      simp only [Nat.zero_add] at hj'
      simpa [slotW] using hj'

/-! ## Derived facts about whole-tree construction -/

theorem construct_read (t : BefTy) (b : Buffer) (vs : List (ElemVal t))
    (hok : valsOkb t vs = true)
    (hsz : (construct t b vs).1.size ≤ 2 ^ 64) :
    readRegion t (construct t b vs).1 (construct t b vs).2 = vs := by
  have hc1 : (construct t b vs).1 =
      fillRegion t (newVec b t vs.length).1 (newVec b t vs.length).2 vs := rfl
  have hc2 : (construct t b vs).2 = (newVec b t vs.length).2 := rfl
  rw [hc1, hc2]
  refine fillRegion_read t vs (newVec b t vs.length).1 (newVec b t vs.length).2
    _ hok ?_ (newVec_headerBytes b t vs.length) ?_ (fun o h1 h2 => rfl)
  · rw [newVec_size, newVec_addr]
    omega
  · rw [← hc1]; exact hsz

theorem getD_range_map {α : Type} (n : Nat) (f : Nat → α) (d : α) (i : Nat)
    (h : i < n) : ((List.range n).map f).getD i d = f i := by
  rw [List.getD_eq_getElem _ _ (by simpa using h)]
  simp

theorem readCounts_eq_countsOfVal :
    ∀ (t : BefTy) (b : Buffer) (a : Nat),
      readCounts t b a = countsOfVal t (readRegion t b a) := by
  intro t
  induction t with
  | u32 =>
      intro b a
      show CTree.mk (vecSize b a) [] = countsOfVal .u32 (readRegion .u32 b a)
      have h : (readRegion .u32 b a).length = vecSize b a := by
        show ((List.range (vecSize b a)).map _).length = _
        rw [List.length_map, List.length_range]
      show CTree.mk (vecSize b a) [] =
        CTree.mk (readRegion .u32 b a).length []
      rw [h]
  | vec u ih =>
      intro b a
      show CTree.mk (vecSize b a)
          ((List.range (vecSize b a)).map fun i =>
            readCounts u b
              (decodeLE (readBytes b (a + headerW + i * slotW (.vec u)) addrW)))
        = countsOfVal (.vec u) (readRegion (.vec u) b a)
      show _ = CTree.mk (readRegion (.vec u) b a).length
        ((readRegion (.vec u) b a).map fun v => countsOfVal u v)
      have h : (readRegion (.vec u) b a).length = vecSize b a := by
        show ((List.range (vecSize b a)).map _).length = _
        rw [List.length_map, List.length_range]
      rw [h]
      show _ = CTree.mk (vecSize b a)
        (((List.range (vecSize b a)).map fun i =>
            readRegion u b
              (decodeLE (readBytes b (a + headerW + i * slotW (.vec u)) addrW))).map
          fun v => countsOfVal u v)
      rw [List.map_map]
      refine congrArg _ (List.map_congr_left fun i _ => ?_)
      exact ih b (decodeLE (readBytes b (a + headerW + i * slotW (.vec u)) addrW))

/-! ## Claim theorems: the container subsystem -/

/-- C1: for every value expressible as nested vectors of trivial elements,
constructing it via `New`/`ConstructAt` and reading it back through the
Vector/Span reader views yields exactly the value, with element order
preserved at every level (round trip `Read(Write(x)) = x`). -/
theorem c1_round_trip (t : BefTy) (b : Buffer) (vs : List (ElemVal t))
    (hok : valsOkb t vs = true)
    (hsz : (construct t b vs).1.size ≤ 2 ^ 64) :
    readRegion t (construct t b vs).1 (construct t b vs).2 = vs :=
  construct_read t b vs hok hsz

theorem c1_round_trip_witness :
    valsOkb (.vec .u32) [[0, 1], [2], []] = true ∧
    (construct (.vec .u32) ⟨[], 0⟩ [[0, 1], [2], []]).1.size ≤ 2 ^ 64 ∧
    readRegion (.vec .u32) (construct (.vec .u32) ⟨[], 0⟩ [[0, 1], [2], []]).1
      (construct (.vec .u32) ⟨[], 0⟩ [[0, 1], [2], []]).2 = [[0, 1], [2], []] :=
  ⟨by decide, by decide,
    c1_round_trip (.vec .u32) ⟨[], 0⟩ [[0, 1], [2], []] (by decide) (by decide)⟩

/-- C2: constructing `n` trivial values into a `Vector<uint32>` via
`ConstructAt(i, value_i)` yields a Span with `size() = n` and
`span[i] = value_i` for every `i < n`. -/
theorem c2_trivial_vector (b : Buffer) (vs : List Nat)
    (hok : valsOkb .u32 vs = true)
    (hsz : (construct .u32 b vs).1.size ≤ 2 ^ 64) :
    vecSize (construct .u32 b vs).1 (construct .u32 b vs).2 = vs.length ∧
    ∀ i, i < vs.length →
      spanGet .u32 (construct .u32 b vs).1 (construct .u32 b vs).2 i =
        vs.getD i 0 := by
  have hread := construct_read .u32 b vs hok hsz
  have hlen : vecSize (construct .u32 b vs).1 (construct .u32 b vs).2 =
      vs.length := by
    have h2 := congrArg List.length hread
    rw [show readRegion .u32 (construct .u32 b vs).1 (construct .u32 b vs).2 =
        (List.range (vecSize (construct .u32 b vs).1
          (construct .u32 b vs).2)).map (fun i =>
            decodeLE (readBytes (construct .u32 b vs).1
              ((construct .u32 b vs).2 + headerW + i * slotW .u32)
              (slotW .u32))) from rfl,
      List.length_map, List.length_range] at h2
    exact h2
  refine ⟨hlen, fun i hi => ?_⟩
  show decodeLE (readBytes (construct .u32 b vs).1
    ((construct .u32 b vs).2 + headerW + i * slotW .u32) (slotW .u32)) =
    vs.getD i 0
  have h1 : vs.getD i 0 = (readRegion .u32 (construct .u32 b vs).1
      (construct .u32 b vs).2).getD i 0 := by rw [hread]
  rw [h1]
  rw [show readRegion .u32 (construct .u32 b vs).1 (construct .u32 b vs).2 =
      (List.range (vecSize (construct .u32 b vs).1
        (construct .u32 b vs).2)).map (fun i =>
          decodeLE (readBytes (construct .u32 b vs).1
            ((construct .u32 b vs).2 + headerW + i * slotW .u32)
            (slotW .u32))) from rfl]
  rw [hlen, getD_range_map _ _ _ i hi]

theorem c2_trivial_vector_witness :
    valsOkb .u32 [0, 1, 2, 3] = true ∧
    (construct .u32 ⟨[], 0⟩ [0, 1, 2, 3]).1.size ≤ 2 ^ 64 ∧
    vecSize (construct .u32 ⟨[], 0⟩ [0, 1, 2, 3]).1
      (construct .u32 ⟨[], 0⟩ [0, 1, 2, 3]).2 = 4 ∧
    spanGet .u32 (construct .u32 ⟨[], 0⟩ [0, 1, 2, 3]).1
      (construct .u32 ⟨[], 0⟩ [0, 1, 2, 3]).2 2 = [0, 1, 2, 3].getD 2 0 :=
  ⟨by decide, by decide,
    (c2_trivial_vector ⟨[], 0⟩ [0, 1, 2, 3] (by decide) (by decide)).1,
    (c2_trivial_vector ⟨[], 0⟩ [0, 1, 2, 3] (by decide) (by decide)).2 2
      (by decide)⟩

/-- C3: constructing a nested vector-of-vectors tree and reading it back
yields, at every level and index, a reader-view `size()` equal to the count
passed to the corresponding `New`/`ConstructAt` call, down to the trivial
leaves. -/
theorem c3_nested_sizes (t : BefTy) (b : Buffer) (vs : List (ElemVal t))
    (hok : valsOkb t vs = true)
    (hsz : (construct t b vs).1.size ≤ 2 ^ 64) :
    readCounts t (construct t b vs).1 (construct t b vs).2 =
      countsOfVal t vs := by
  rw [readCounts_eq_countsOfVal, construct_read t b vs hok hsz]

theorem c3_nested_sizes_witness :
    valsOkb (.vec .u32) [[0, 1], [2], []] = true ∧
    (construct (.vec .u32) ⟨[], 0⟩ [[0, 1], [2], []]).1.size ≤ 2 ^ 64 ∧
    readCounts (.vec .u32) (construct (.vec .u32) ⟨[], 0⟩ [[0, 1], [2], []]).1
        (construct (.vec .u32) ⟨[], 0⟩ [[0, 1], [2], []]).2 =
      countsOfVal (.vec .u32) [[0, 1], [2], []] :=
  ⟨by decide, by decide,
    c3_nested_sizes (.vec .u32) ⟨[], 0⟩ [[0, 1], [2], []] (by decide) (by decide)⟩

/-- C4: `New<Vector<T>>(allocator, 0)` immediately read back yields
`size() = 0` and an empty iteration sequence, so iterating the empty Span
is safe (`begin() = end()`, no element is ever dereferenced). -/
theorem c4_zero_length (t : BefTy) (b : Buffer) :
    vecSize (newVec b t 0).1 (newVec b t 0).2 = 0 ∧
    spanToList t (newVec b t 0).1 (newVec b t 0).2 = [] := by
  have hsize : vecSize (newVec b t 0).1 (newVec b t 0).2 = 0 := by
    rw [vecSize, newVec_headerBytes]
    exact decodeLE_encodeLE headerW 0 (by positivity)
  refine ⟨hsize, ?_⟩
  rw [spanToList]
  cases t with
  | u32 =>
      show (List.range (vecSize (newVec b .u32 0).1 (newVec b .u32 0).2)).map _
        = []
      rw [hsize]
      rfl
  | vec u =>
      show (List.range (vecSize (newVec b (.vec u) 0).1
        (newVec b (.vec u) 0).2)).map _ = []
      rw [hsize]
      rfl

/-- C5: bytes reachable through an address handed out earlier keep their
meaning across any later sequence of `Append` calls, including ones that
grow (and physically reallocate) the backing capacity: resolving the
address with `Get` afterwards yields the same bytes. -/
theorem c5_offsets_stable (b : Buffer) (ops : List (Nat × Nat)) (a n : Nat)
    (h : a + n ≤ b.size) :
    ((appendAll b ops).get a).take n = (b.get a).take n := by
  induction ops generalizing b with
  | nil => rfl
  | cons op rest ih =>
      have hstep : appendAll b (op :: rest) =
          appendAll (b.append op.1 op.2).1 rest := rfl
      rw [hstep]
      have hsz : b.size ≤ (b.append op.1 op.2).1.size := by
        rw [Buffer.append_size]
        have := alignUp_ge b.size op.2
        omega
      rw [ih (b.append op.1 op.2).1 (by omega)]
      show (((b.data ++ List.replicate _ 0) : List Nat).drop a).take n =
        (b.data.drop a).take n
      rw [List.drop_append_of_le_length (by
        have : a + n ≤ b.data.length := h
        omega)]
      rw [List.take_append_of_le_length (by
        have : a + n ≤ b.data.length := h
        rw [List.length_drop]
        omega)]

theorem c5_offsets_stable_witness :
    (3 : Nat) + 3 ≤ (Buffer.mk [7, 8, 9, 1, 2, 3] 6).size ∧
    ((appendAll ⟨[7, 8, 9, 1, 2, 3], 6⟩ [(10, 4), (5, 8)]).get 3).take 3 =
      ((Buffer.mk [7, 8, 9, 1, 2, 3] 6).get 3).take 3 :=
  ⟨by decide,
    c5_offsets_stable ⟨[7, 8, 9, 1, 2, 3], 6⟩ [(10, 4), (5, 8)] 3 3 (by decide)⟩

/-- C6: `New<Vector<T>>(allocator, count)` reserves exactly
`headerWidth + count * slotWidth(T)` bytes at the aligned end of storage,
writes `count` into the header field at the region's start, and returns the
builder bound to that region's address; the reader recovers exactly this
count as `size()`, and element access resolves slot `i` at offset
`headerWidth + i * slotWidth(T)` from the region address. -/
theorem c6_new_layout (b : Buffer) (t : BefTy) (count : Nat)
    (h : count < 2 ^ 64) :
    (newVec b t count).2 = alignUp b.size regionAlign ∧
    (newVec b t count).1.size =
      alignUp b.size regionAlign + (headerW + count * slotW t) ∧
    vecSize (newVec b t count).1 (newVec b t count).2 = count ∧
    (∀ (b' : Buffer) (a i : Nat), spanGet .u32 b' a i =
      decodeLE (readBytes b' (a + headerW + i * slotW .u32) (slotW .u32))) ∧
    (∀ (u : BefTy) (b' : Buffer) (a i : Nat), spanGet (.vec u) b' a i =
      readRegion u b'
        (decodeLE (readBytes b' (a + headerW + i * slotW (.vec u)) addrW))) := by
  refine ⟨newVec_addr b t count, newVec_size b t count, ?_,
    fun b' a i => rfl, fun u b' a i => rfl⟩
  rw [vecSize, newVec_headerBytes]
  exact decodeLE_encodeLE headerW count
    (by rw [show (256:Nat) ^ headerW = 2 ^ 64 by norm_num [headerW]]; exact h)

theorem c6_new_layout_witness :
    (5 : Nat) < 2 ^ 64 ∧
    (newVec ⟨[1, 2, 3], 3⟩ .u32 5).2 =
      alignUp (Buffer.mk [1, 2, 3] 3).size regionAlign ∧
    (newVec ⟨[1, 2, 3], 3⟩ .u32 5).1.size =
      alignUp (Buffer.mk [1, 2, 3] 3).size regionAlign +
        (headerW + 5 * slotW .u32) ∧
    vecSize (newVec ⟨[1, 2, 3], 3⟩ .u32 5).1 (newVec ⟨[1, 2, 3], 3⟩ .u32 5).2 =
      5 ∧
    spanGet .u32 (newVec ⟨[1, 2, 3], 3⟩ .u32 5).1 8 2 =
      decodeLE (readBytes (newVec ⟨[1, 2, 3], 3⟩ .u32 5).1
        (8 + headerW + 2 * slotW .u32) (slotW .u32)) :=
  ⟨by decide,
    (c6_new_layout ⟨[1, 2, 3], 3⟩ .u32 5 (by decide)).1,
    (c6_new_layout ⟨[1, 2, 3], 3⟩ .u32 5 (by decide)).2.1,
    (c6_new_layout ⟨[1, 2, 3], 3⟩ .u32 5 (by decide)).2.2.1,
    (c6_new_layout ⟨[1, 2, 3], 3⟩ .u32 5 (by decide)).2.2.2.1
      (newVec ⟨[1, 2, 3], 3⟩ .u32 5).1 8 2⟩

/-- C7: the compound `ConstructAt(index, subCount)` allocates a fresh region
past the current end of the buffer (disjoint from the parent region, never
embedded inline), stores the new region's address in the parent's slot at
`index`, and hands back the builder bound to the new region; reading the
parent's slot afterwards yields the nested Vector view rooted at that
address. -/
theorem c7_compound_construct (u : BefTy) (b : Buffer) (a i count : Nat)
    (hslot : a + headerW + (i + 1) * addrW ≤ b.size)
    (haddr : b.size + 7 < 2 ^ 64)
    (hcount : count < 2 ^ 64) :
    b.size ≤ (constructAtVec u b a i count).2 ∧
    decodeLE (readBytes (constructAtVec u b a i count).1
      (a + headerW + i * addrW) addrW) = (constructAtVec u b a i count).2 ∧
    vecSize (constructAtVec u b a i count).1 (constructAtVec u b a i count).2 =
      count ∧
    spanGet (.vec u) (constructAtVec u b a i count).1 a i =
      readRegion u (constructAtVec u b a i count).1
        (constructAtVec u b a i count).2 := by
  have hca : (constructAtVec u b a i count).2 = alignUp b.size regionAlign :=
    constructAtVec_addr u b a i count
  have hge : b.size ≤ (constructAtVec u b a i count).2 := by
    rw [hca]; exact alignUp_ge _ _
  have hle : (constructAtVec u b a i count).2 ≤ b.size + 7 := by
    rw [hca]
    have := alignUp_le b.size regionAlign (by norm_num [regionAlign])
    simpa [regionAlign] using this
  have hca64 : (constructAtVec u b a i count).2 < 2 ^ 64 := by omega
  have hN1 : (newVec b u count).1.size =
      alignUp b.size regionAlign + (headerW + count * slotW u) :=
    newVec_size b u count
  -- the parent-slot bytes hold the fresh region's address
  have hA1 : readBytes (constructAtVec u b a i count).1
      (a + headerW + i * addrW) addrW =
      encodeLE addrW (constructAtVec u b a i count).2 := by
    show readBytes ((newVec b u count).1.setBytes (a + headerW + i * addrW)
      (encodeLE addrW (newVec b u count).2)) (a + headerW + i * addrW) addrW = _
    have hl := encodeLE_length addrW (newVec b u count).2
    have h := readBytes_setBytes_self (encodeLE addrW (newVec b u count).2)
      (newVec b u count).1 (a + headerW + i * addrW)
      (by rw [hl, hN1]
          have := alignUp_ge b.size regionAlign
          simp only [addrW, headerW] at hslot ⊢
          omega)
    rw [hl] at h
    exact h
  have hdec : decodeLE (readBytes (constructAtVec u b a i count).1
      (a + headerW + i * addrW) addrW) = (constructAtVec u b a i count).2 := by
    rw [hA1]
    exact decodeLE_encodeLE addrW _
      (by rw [show (256:Nat) ^ addrW = 2 ^ 64 by norm_num [addrW]]
          exact hca64)
  refine ⟨hge, hdec, ?_, ?_⟩
  · -- the fresh region's header is untouched by the parent-slot write
    have hout : Preserved (constructAtVec u b a i count).1 (newVec b u count).1
        (constructAtVec u b a i count).2
        ((constructAtVec u b a i count).2 + headerW) :=
      fun o h1 h2 => Buffer.byteAt_setBytes_out _ _ _ o
        (Or.inr (by rw [encodeLE_length]
                    rw [hca] at h1
                    have := alignUp_ge b.size regionAlign
                    simp only [addrW, headerW] at hslot h1 ⊢
                    omega))
    rw [vecSize, readBytes_congr headerW _ hout (le_refl _) (le_refl _)]
    rw [show (constructAtVec u b a i count).2 = (newVec b u count).2 from rfl,
      newVec_headerBytes]
    exact decodeLE_encodeLE headerW count
      (by rw [show (256:Nat) ^ headerW = 2 ^ 64 by norm_num [headerW]]
          exact hcount)
  · show readRegion u (constructAtVec u b a i count).1
      (decodeLE (readBytes (constructAtVec u b a i count).1
        (a + headerW + i * slotW (.vec u)) addrW)) = _
    rw [show slotW (.vec u) = addrW from rfl, hdec]

theorem c7_compound_construct_witness :
    (0 : Nat) + headerW + (0 + 1) * addrW ≤ (Buffer.mk (List.replicate 32 5) 32).size ∧
    (Buffer.mk (List.replicate 32 5) 32).size + 7 < 2 ^ 64 ∧
    (2 : Nat) < 2 ^ 64 ∧
    ((Buffer.mk (List.replicate 32 5) 32).size ≤
        (constructAtVec .u32 ⟨List.replicate 32 5, 32⟩ 0 0 2).2 ∧
      decodeLE (readBytes (constructAtVec .u32 ⟨List.replicate 32 5, 32⟩ 0 0 2).1
        (0 + headerW + 0 * addrW) addrW) =
        (constructAtVec .u32 ⟨List.replicate 32 5, 32⟩ 0 0 2).2 ∧
      vecSize (constructAtVec .u32 ⟨List.replicate 32 5, 32⟩ 0 0 2).1
        (constructAtVec .u32 ⟨List.replicate 32 5, 32⟩ 0 0 2).2 = 2 ∧
      spanGet (.vec .u32) (constructAtVec .u32 ⟨List.replicate 32 5, 32⟩ 0 0 2).1 0 0 =
        readRegion .u32 (constructAtVec .u32 ⟨List.replicate 32 5, 32⟩ 0 0 2).1
          (constructAtVec .u32 ⟨List.replicate 32 5, 32⟩ 0 0 2).2) :=
  ⟨by decide, by decide, by decide,
    c7_compound_construct .u32 ⟨List.replicate 32 5, 32⟩ 0 0 2
      (by decide) (by decide) (by decide)⟩

/-! ## Reservation-sequence lemmas -/

theorem reserveAll_chainOk :
    ∀ (ops : List (Nat × Nat)) (b : Buffer),
      chainOk b.size (reserveAll b ops).2 := by
  intro ops
  induction ops with
  | nil => intro b; trivial
  | cons op rest ih =>
      intro b
      refine ⟨alignUp_ge _ _, ?_⟩
      have hsz : (reserve b op.1 op.2).1.size = alignUp b.size op.2 + op.1 :=
        Buffer.append_size b op.1 op.2
      have := ih (reserve b op.1 op.2).1
      rw [hsz] at this
      exact this

theorem reserveAll_size_mono :
    ∀ (ops : List (Nat × Nat)) (b : Buffer),
      b.size ≤ (reserveAll b ops).1.size := by
  intro ops
  induction ops with
  | nil => intro b; exact le_refl _
  | cons op rest ih =>
      intro b
      refine le_trans ?_ (ih (reserve b op.1 op.2).1)
      show b.size ≤ (b.append op.1 op.2).1.size
      rw [Buffer.append_size]
      have := alignUp_ge b.size op.2
      omega

theorem chainOk_le :
    ∀ (l : List (Nat × Nat × Nat)) (lo : Nat), chainOk lo l →
      ∀ r ∈ l, lo ≤ r.1 := by
  intro l
  induction l with
  | nil => intro lo _ r hr; simp at hr
  | cons x rest ih =>
      intro lo h r hr
      rcases List.mem_cons.mp hr with heq | hmem
      · subst heq; exact h.1
      · exact le_trans (le_trans h.1 (Nat.le_add_right _ _)) (ih _ h.2 r hmem)

theorem chainOk_pairwise :
    ∀ (l : List (Nat × Nat × Nat)) (lo : Nat), chainOk lo l →
      List.Pairwise (fun r s => r.1 + r.2.1 ≤ s.1 ∨ s.1 + s.2.1 ≤ r.1) l := by
  intro l
  induction l with
  | nil => intro lo _; exact List.Pairwise.nil
  | cons x rest ih =>
      intro lo h
      exact List.Pairwise.cons
        (fun s hs => Or.inl (chainOk_le rest _ h.2 s hs)) (ih _ h.2)

theorem reserveAll_aligned :
    ∀ (ops : List (Nat × Nat)) (b : Buffer),
      ∀ r ∈ (reserveAll b ops).2, r.2.2 ≠ 0 → r.1 % r.2.2 = 0 := by
  intro ops
  induction ops with
  | nil => intro b r hr; simp [reserveAll] at hr
  | cons op rest ih =>
      intro b r hr hal
      rcases List.mem_cons.mp hr with heq | hmem
      · subst heq
        exact alignUp_mod b.size op.2 hal
      · exact ih (reserve b op.1 op.2).1 r hmem hal

/-- C8: over any sequence of `Allocator.Reserve(byteCount, alignment)` calls
on one buffer, the write cursor never decreases, each reserved byte range
ends before the next begins (so distinct reservations never overlap), and
every returned address is a multiple of its requested alignment. -/
theorem c8_reserve_discipline (b : Buffer) (ops : List (Nat × Nat)) :
    chainOk b.size (reserveAll b ops).2 ∧
    b.size ≤ (reserveAll b ops).1.size ∧
    List.Pairwise (fun r s => r.1 + r.2.1 ≤ s.1 ∨ s.1 + s.2.1 ≤ r.1)
      (reserveAll b ops).2 ∧
    ∀ r ∈ (reserveAll b ops).2, r.2.2 ≠ 0 → r.1 % r.2.2 = 0 :=
  ⟨reserveAll_chainOk ops b, reserveAll_size_mono ops b,
    chainOk_pairwise _ _ (reserveAll_chainOk ops b), reserveAll_aligned ops b⟩

theorem c8_reserve_discipline_witness :
    chainOk (Buffer.mk [1, 2] 2).size
      (reserveAll ⟨[1, 2], 2⟩ [(4, 8), (2, 4), (5, 1)]).2 ∧
    (Buffer.mk [1, 2] 2).size ≤
      (reserveAll ⟨[1, 2], 2⟩ [(4, 8), (2, 4), (5, 1)]).1.size ∧
    List.Pairwise (fun r s => r.1 + r.2.1 ≤ s.1 ∨ s.1 + s.2.1 ≤ r.1)
      (reserveAll ⟨[1, 2], 2⟩ [(4, 8), (2, 4), (5, 1)]).2 ∧
    ((8, 4, 8) : Nat × Nat × Nat) ∈
      (reserveAll ⟨[1, 2], 2⟩ [(4, 8), (2, 4), (5, 1)]).2 ∧
    ((8, 4, 8) : Nat × Nat × Nat).1 % ((8, 4, 8) : Nat × Nat × Nat).2.2 = 0 :=
  ⟨(c8_reserve_discipline ⟨[1, 2], 2⟩ [(4, 8), (2, 4), (5, 1)]).1,
    (c8_reserve_discipline ⟨[1, 2], 2⟩ [(4, 8), (2, 4), (5, 1)]).2.1,
    (c8_reserve_discipline ⟨[1, 2], 2⟩ [(4, 8), (2, 4), (5, 1)]).2.2.1,
    by decide,
    (c8_reserve_discipline ⟨[1, 2], 2⟩ [(4, 8), (2, 4), (5, 1)]).2.2.2
      (8, 4, 8) (by decide) (by decide)⟩

/-! ## BLAS kernel bindings (`backends/gpu/lib/kernels/blas_kernels.cc`)

The kernels are embedded by their error-propagation structure: every
external fallible call (`wrapper::CtxSetCurrent`, `wrapper::BlasCreate`,
`wrapper::BlasSetStream`, the vendor BLAS entry points) is an oracle input
(`Except`/`Option` value), the kernel's own argument-validation functions
(`SafeIntToCublasDataType`, `SafeIntToCublasGemmAlgo`) are embedded
exactly, and each kernel returns its result together with the ordered list
of external calls it performed.  Pure argument marshalling (pointer
wrapping, `ToBlasOperation`, `FromOpaqueValue`) has no error behaviour and
is elided.  `llvm::Expected`/`llvm::Error` are `Except String`/
`Option String` (`some` = failure), an error value being its message. -/

/-- `cudaDataType` bound: `CUDA_R_32F`, the lowest accepted enumerator
(value from the CUDA `library_types.h` header, an external dependency). -/
def CUDA_R_32F : Int := 0

/-- `cudaDataType` bound: `CUDA_C_32U`, the highest accepted enumerator
(value from the CUDA `library_types.h` header). -/
def CUDA_C_32U : Int := 13

/-- `cublasGemmAlgo_t` enumerator (value from `cublas_api.h`). -/
def CUBLAS_GEMM_DFALT : Int := -1

/-- `cublasGemmAlgo_t` enumerator (value from `cublas_api.h`). -/
def CUBLAS_GEMM_ALGO23 : Int := 23

/-- `cublasGemmAlgo_t` enumerator (value from `cublas_api.h`). -/
def CUBLAS_GEMM_DEFAULT_TENSOR_OP : Int := 99

/-- `cublasGemmAlgo_t` enumerator (value from `cublas_api.h`). -/
def CUBLAS_GEMM_ALGO15_TENSOR_OP : Int := 115

/-- `SafeIntToCublasDataType`: casts an `int32` to `cudaDataType`, rejecting
values above `CUDA_C_32U` or below `CUDA_R_32F` with an invalid-argument
error carrying the offending value. -/
def SafeIntToCublasDataType (data_type : Int) : Except String Int :=
  if data_type > CUDA_C_32U ∨ data_type < CUDA_R_32F then
    .error ("Invalid CublasDataType value: " ++ toString data_type)
  else
    .ok data_type

/-- `SafeIntToCublasGemmAlgo`: casts an `int32` to `cublasGemmAlgo_t`,
rejecting values above `CUBLAS_GEMM_ALGO15_TENSOR_OP`, below
`CUBLAS_GEMM_DFALT`, or in the gap between `CUBLAS_GEMM_ALGO23` and
`CUBLAS_GEMM_DEFAULT_TENSOR_OP`. -/
def SafeIntToCublasGemmAlgo (algo : Int) : Except String Int :=
  if algo > CUBLAS_GEMM_ALGO15_TENSOR_OP ∨ algo < CUBLAS_GEMM_DFALT ∨
      (algo > CUBLAS_GEMM_ALGO23 ∧ algo < CUBLAS_GEMM_DEFAULT_TENSOR_OP) then
    .error ("Invalid CublasGemmAlgo value: " ++ toString algo)
  else
    .ok algo

/-- The external calls a BLAS kernel can perform, in the order the source
performs them. -/
inductive BlasCall where
  | ctxSetCurrent
  | blasCreate
  | blasSetStream
  | blasSaxpy
  | blasSgemm
  | blasGemmEx
  | cublasGemmEx
  | cublasGemmStridedBatchedEx
deriving DecidableEq

/-- `BlasCreate` kernel: set the current context, create a BLAS handle,
bind it to the stream; the first failing step's error becomes the kernel's
result and no later call is made. -/
def BlasCreate (current : Except String Unit) (create : Except String Nat)
    (setStream : Option String) : Except String Nat × List BlasCall :=
  match current with
  | .error e => (.error e, [.ctxSetCurrent])
  | .ok _ =>
    match create with
    | .error e => (.error e, [.ctxSetCurrent, .blasCreate])
    | .ok h =>
      match setStream with
      | some e => (.error e, [.ctxSetCurrent, .blasCreate, .blasSetStream])
      | none => (.ok h, [.ctxSetCurrent, .blasCreate, .blasSetStream])

/-- `BlasSaxpy` kernel: set the current context, then return the vendor
`BlasSaxpy` status through the uniform error channel. -/
def BlasSaxpy (current : Except String Unit) (saxpy : Option String) :
    Option String × List BlasCall :=
  match current with
  | .error e => (some e, [.ctxSetCurrent])
  | .ok _ => (saxpy, [.ctxSetCurrent, .blasSaxpy])

/-- `BlasSgemm` kernel: set the current context, then return the vendor
`BlasSgemm` status. -/
def BlasSgemm (current : Except String Unit) (sgemm : Option String) :
    Option String × List BlasCall :=
  match current with
  | .error e => (some e, [.ctxSetCurrent])
  | .ok _ => (sgemm, [.ctxSetCurrent, .blasSgemm])

/-- `BlasGemm` kernel: set the current context, then return the vendor
`BlasGemmEx` status (its attribute conversions are infallible
`FromOpaqueValue` casts). -/
def BlasGemm (current : Except String Unit) (gemmEx : Option String) :
    Option String × List BlasCall :=
  match current with
  | .error e => (some e, [.ctxSetCurrent])
  | .ok _ => (gemmEx, [.ctxSetCurrent, .blasGemmEx])

/-- `BlasSyncGemmEx` kernel: set the current context, validate the three
matrix data types, the compute type and the algorithm, then call the vendor
`CublasGemmEx`; the first failing step short-circuits. -/
def BlasSyncGemmEx (current : Except String Unit)
    (Atype Btype Ctype computeType algo : Int) (gemmEx : Option String) :
    Option String × List BlasCall :=
  match current with
  | .error e => (some e, [.ctxSetCurrent])
  | .ok _ =>
    match SafeIntToCublasDataType Atype with
    | .error e => (some e, [.ctxSetCurrent])
    | .ok _ =>
      match SafeIntToCublasDataType Btype with
      | .error e => (some e, [.ctxSetCurrent])
      | .ok _ =>
        match SafeIntToCublasDataType Ctype with
        | .error e => (some e, [.ctxSetCurrent])
        | .ok _ =>
          match SafeIntToCublasDataType computeType with
          | .error e => (some e, [.ctxSetCurrent])
          | .ok _ =>
            match SafeIntToCublasGemmAlgo algo with
            | .error e => (some e, [.ctxSetCurrent])
            | .ok _ => (gemmEx, [.ctxSetCurrent, .cublasGemmEx])

/-- `BlasGemmStridedBatchedEx` kernel: same validation chain as
`BlasSyncGemmEx`, ending in the vendor `CublasGemmStridedBatchedEx`. -/
def BlasGemmStridedBatchedEx (current : Except String Unit)
    (Atype Btype Ctype computeType algo : Int) (vendor : Option String) :
    Option String × List BlasCall :=
  match current with
  | .error e => (some e, [.ctxSetCurrent])
  | .ok _ =>
    match SafeIntToCublasDataType Atype with
    | .error e => (some e, [.ctxSetCurrent])
    | .ok _ =>
      match SafeIntToCublasDataType Btype with
      | .error e => (some e, [.ctxSetCurrent])
      | .ok _ =>
        match SafeIntToCublasDataType Ctype with
        | .error e => (some e, [.ctxSetCurrent])
        | .ok _ =>
          match SafeIntToCublasDataType computeType with
          | .error e => (some e, [.ctxSetCurrent])
          | .ok _ =>
            match SafeIntToCublasGemmAlgo algo with
            | .error e => (some e, [.ctxSetCurrent])
            | .ok _ =>
              (vendor, [.ctxSetCurrent, .cublasGemmStridedBatchedEx])

/-! ## Claim theorems: the BLAS bindings -/

/-- C9: in every BLAS binding kernel, each fallible step short-circuits —
the first failing step's error is returned unchanged as the kernel's
result, no later step (in particular no vendor BLAS call) is executed once
a step has failed, and vendor status codes surface only through the uniform
`Error`/`Expected` channel (the all-success case returns the vendor status
verbatim). -/
theorem c9_short_circuit :
    (∀ (e : String) (create : Except String Nat) (setStream : Option String),
      BlasCreate (.error e) create setStream = (.error e, [.ctxSetCurrent])) ∧
    (∀ (e : String) (setStream : Option String),
      BlasCreate (.ok ()) (.error e) setStream =
        (.error e, [.ctxSetCurrent, .blasCreate])) ∧
    (∀ (h : Nat) (e : String),
      BlasCreate (.ok ()) (.ok h) (some e) =
        (.error e, [.ctxSetCurrent, .blasCreate, .blasSetStream])) ∧
    (∀ h : Nat,
      BlasCreate (.ok ()) (.ok h) none =
        (.ok h, [.ctxSetCurrent, .blasCreate, .blasSetStream])) ∧
    (∀ (e : String) (vendor : Option String),
      BlasSaxpy (.error e) vendor = (some e, [.ctxSetCurrent])) ∧
    (∀ vendor : Option String,
      BlasSaxpy (.ok ()) vendor = (vendor, [.ctxSetCurrent, .blasSaxpy])) ∧
    (∀ (e : String) (vendor : Option String),
      BlasSgemm (.error e) vendor = (some e, [.ctxSetCurrent])) ∧
    (∀ vendor : Option String,
      BlasSgemm (.ok ()) vendor = (vendor, [.ctxSetCurrent, .blasSgemm])) ∧
    (∀ (e : String) (vendor : Option String),
      BlasGemm (.error e) vendor = (some e, [.ctxSetCurrent])) ∧
    (∀ vendor : Option String,
      BlasGemm (.ok ()) vendor = (vendor, [.ctxSetCurrent, .blasGemmEx])) ∧
    (∀ (e : String) (A B C ct al : Int) (vendor : Option String),
      BlasSyncGemmEx (.error e) A B C ct al vendor =
        (some e, [.ctxSetCurrent])) ∧
    (∀ (A B C ct al : Int) (vendor : Option String) (e : String),
      SafeIntToCublasDataType A = .error e →
      BlasSyncGemmEx (.ok ()) A B C ct al vendor = (some e, [.ctxSetCurrent])) ∧
    (∀ (A B C ct al A' : Int) (vendor : Option String) (e : String),
      SafeIntToCublasDataType A = .ok A' →
      SafeIntToCublasDataType B = .error e →
      BlasSyncGemmEx (.ok ()) A B C ct al vendor = (some e, [.ctxSetCurrent])) ∧
    (∀ (A B C ct al A' B' : Int) (vendor : Option String) (e : String),
      SafeIntToCublasDataType A = .ok A' →
      SafeIntToCublasDataType B = .ok B' →
      SafeIntToCublasDataType C = .error e →
      BlasSyncGemmEx (.ok ()) A B C ct al vendor = (some e, [.ctxSetCurrent])) ∧
    (∀ (A B C ct al A' B' C' : Int) (vendor : Option String) (e : String),
      SafeIntToCublasDataType A = .ok A' →
      SafeIntToCublasDataType B = .ok B' →
      SafeIntToCublasDataType C = .ok C' →
      SafeIntToCublasDataType ct = .error e →
      BlasSyncGemmEx (.ok ()) A B C ct al vendor = (some e, [.ctxSetCurrent])) ∧
    (∀ (A B C ct al A' B' C' ct' : Int) (vendor : Option String) (e : String),
      SafeIntToCublasDataType A = .ok A' →
      SafeIntToCublasDataType B = .ok B' →
      SafeIntToCublasDataType C = .ok C' →
      SafeIntToCublasDataType ct = .ok ct' →
      SafeIntToCublasGemmAlgo al = .error e →
      BlasSyncGemmEx (.ok ()) A B C ct al vendor = (some e, [.ctxSetCurrent])) ∧
    (∀ (A B C ct al A' B' C' ct' al' : Int) (vendor : Option String),
      SafeIntToCublasDataType A = .ok A' →
      SafeIntToCublasDataType B = .ok B' →
      SafeIntToCublasDataType C = .ok C' →
      SafeIntToCublasDataType ct = .ok ct' →
      SafeIntToCublasGemmAlgo al = .ok al' →
      BlasSyncGemmEx (.ok ()) A B C ct al vendor =
        (vendor, [.ctxSetCurrent, .cublasGemmEx])) ∧
    (∀ (e : String) (A B C ct al : Int) (vendor : Option String),
      BlasGemmStridedBatchedEx (.error e) A B C ct al vendor =
        (some e, [.ctxSetCurrent])) ∧
    (∀ (A B C ct al : Int) (vendor : Option String) (e : String),
      SafeIntToCublasDataType A = .error e →
      BlasGemmStridedBatchedEx (.ok ()) A B C ct al vendor =
        (some e, [.ctxSetCurrent])) ∧
    (∀ (A B C ct al A' : Int) (vendor : Option String) (e : String),
      SafeIntToCublasDataType A = .ok A' →
      SafeIntToCublasDataType B = .error e →
      BlasGemmStridedBatchedEx (.ok ()) A B C ct al vendor =
        (some e, [.ctxSetCurrent])) ∧
    (∀ (A B C ct al A' B' : Int) (vendor : Option String) (e : String),
      SafeIntToCublasDataType A = .ok A' →
      SafeIntToCublasDataType B = .ok B' →
      SafeIntToCublasDataType C = .error e →
      BlasGemmStridedBatchedEx (.ok ()) A B C ct al vendor =
        (some e, [.ctxSetCurrent])) ∧
    (∀ (A B C ct al A' B' C' : Int) (vendor : Option String) (e : String),
      SafeIntToCublasDataType A = .ok A' →
      SafeIntToCublasDataType B = .ok B' →
      SafeIntToCublasDataType C = .ok C' →
      SafeIntToCublasDataType ct = .error e →
      BlasGemmStridedBatchedEx (.ok ()) A B C ct al vendor =
        (some e, [.ctxSetCurrent])) ∧
    (∀ (A B C ct al A' B' C' ct' : Int) (vendor : Option String) (e : String),
      SafeIntToCublasDataType A = .ok A' →
      SafeIntToCublasDataType B = .ok B' →
      SafeIntToCublasDataType C = .ok C' →
      SafeIntToCublasDataType ct = .ok ct' →
      SafeIntToCublasGemmAlgo al = .error e →
      BlasGemmStridedBatchedEx (.ok ()) A B C ct al vendor =
        (some e, [.ctxSetCurrent])) ∧
    (∀ (A B C ct al A' B' C' ct' al' : Int) (vendor : Option String),
      SafeIntToCublasDataType A = .ok A' →
      SafeIntToCublasDataType B = .ok B' →
      SafeIntToCublasDataType C = .ok C' →
      SafeIntToCublasDataType ct = .ok ct' →
      SafeIntToCublasGemmAlgo al = .ok al' →
      BlasGemmStridedBatchedEx (.ok ()) A B C ct al vendor =
        (vendor, [.ctxSetCurrent, .cublasGemmStridedBatchedEx])) := by
  refine ⟨fun e cr st => rfl, fun e st => rfl, fun h e => rfl, fun h => rfl,
    fun e v => rfl, fun v => rfl, fun e v => rfl, fun v => rfl,
    fun e v => rfl, fun v => rfl, fun e A B C ct al v => rfl,
    ?_, ?_, ?_, ?_, ?_, ?_, fun e A B C ct al v => rfl, ?_, ?_, ?_, ?_, ?_, ?_⟩
  · intro A B C ct al v e hA
    simp only [BlasSyncGemmEx, hA]
  · intro A B C ct al A' v e hA hB
    simp only [BlasSyncGemmEx, hA, hB]
  · intro A B C ct al A' B' v e hA hB hC
    simp only [BlasSyncGemmEx, hA, hB, hC]
  · intro A B C ct al A' B' C' v e hA hB hC hct
    simp only [BlasSyncGemmEx, hA, hB, hC, hct]
  · intro A B C ct al A' B' C' ct' v e hA hB hC hct hal
    simp only [BlasSyncGemmEx, hA, hB, hC, hct, hal]
  · intro A B C ct al A' B' C' ct' al' v hA hB hC hct hal
    simp only [BlasSyncGemmEx, hA, hB, hC, hct, hal]
  · intro A B C ct al v e hA
    simp only [BlasGemmStridedBatchedEx, hA]
  · intro A B C ct al A' v e hA hB
    simp only [BlasGemmStridedBatchedEx, hA, hB]
  · intro A B C ct al A' B' v e hA hB hC
    simp only [BlasGemmStridedBatchedEx, hA, hB, hC]
  · intro A B C ct al A' B' C' v e hA hB hC hct
    simp only [BlasGemmStridedBatchedEx, hA, hB, hC, hct]
  · intro A B C ct al A' B' C' ct' v e hA hB hC hct hal
    simp only [BlasGemmStridedBatchedEx, hA, hB, hC, hct, hal]
  · intro A B C ct al A' B' C' ct' al' v hA hB hC hct hal
    simp only [BlasGemmStridedBatchedEx, hA, hB, hC, hct, hal]

theorem c9_short_circuit_witness :
    SafeIntToCublasDataType 0 = .ok 0 ∧
    SafeIntToCublasDataType 13 = .ok 13 ∧
    SafeIntToCublasGemmAlgo 50 =
      .error ("Invalid CublasGemmAlgo value: " ++ toString (50 : Int)) ∧
    BlasSyncGemmEx (.ok ()) 0 13 0 0 50 none =
      (some ("Invalid CublasGemmAlgo value: " ++ toString (50 : Int)),
        [.ctxSetCurrent]) ∧
    BlasGemmStridedBatchedEx (.ok ()) 0 0 0 0 (-1) none =
      (none, [.ctxSetCurrent, .cublasGemmStridedBatchedEx]) := by
  obtain ⟨h1, h2, h3, h4, h5, h6, h7, h8, h9, h10, h11, h12, h13, h14, h15,
    h16, h17, h18, h19, h20, h21, h22, h23, h24⟩ := c9_short_circuit
  refine ⟨by rfl, by rfl, by rfl, ?_, ?_⟩
  · exact h16 0 13 0 0 50 0 13 0 0 none
      ("Invalid CublasGemmAlgo value: " ++ toString (50 : Int))
      (by rfl) (by rfl) (by rfl) (by rfl) (by rfl)
  · exact h24 0 0 0 0 (-1) 0 0 0 0 (-1) none
      (by rfl) (by rfl) (by rfl) (by rfl) (by rfl)

/-- C10: `SafeIntToCublasGemmAlgo` accepts exactly the two closed enumerator
ranges `[CUBLAS_GEMM_DFALT, CUBLAS_GEMM_ALGO23]` and
`[CUBLAS_GEMM_DEFAULT_TENSOR_OP, CUBLAS_GEMM_ALGO15_TENSOR_OP]` (returning
the cast value) and yields an invalid-argument error for every other input,
including the gap between the ranges; `SafeIntToCublasDataType` accepts
exactly the closed range `[CUDA_R_32F, CUDA_C_32U]`. -/
theorem c10_safe_int_ranges (algo data_type : Int) :
    (SafeIntToCublasGemmAlgo algo = .ok algo ↔
      (CUBLAS_GEMM_DFALT ≤ algo ∧ algo ≤ CUBLAS_GEMM_ALGO23) ∨
      (CUBLAS_GEMM_DEFAULT_TENSOR_OP ≤ algo ∧
        algo ≤ CUBLAS_GEMM_ALGO15_TENSOR_OP)) ∧
    (SafeIntToCublasGemmAlgo algo = .ok algo ∨
      SafeIntToCublasGemmAlgo algo =
        .error ("Invalid CublasGemmAlgo value: " ++ toString algo)) ∧
    (SafeIntToCublasDataType data_type = .ok data_type ↔
      (CUDA_R_32F ≤ data_type ∧ data_type ≤ CUDA_C_32U)) ∧
    (SafeIntToCublasDataType data_type = .ok data_type ∨
      SafeIntToCublasDataType data_type =
        .error ("Invalid CublasDataType value: " ++ toString data_type)) := by
  refine ⟨?_, ?_, ?_, ?_⟩
  · rw [SafeIntToCublasGemmAlgo]
    simp only [CUBLAS_GEMM_DFALT, CUBLAS_GEMM_ALGO23,
      CUBLAS_GEMM_DEFAULT_TENSOR_OP, CUBLAS_GEMM_ALGO15_TENSOR_OP]
    split
    · rename_i h
      constructor
      · intro hcontra; exact absurd hcontra (by simp)
      · intro hr; omega
    · rename_i h
      simp only [not_or, not_and, not_lt] at h
      constructor
      · intro _; omega
      · intro _; rfl
  · rw [SafeIntToCublasGemmAlgo]
    split
    · exact Or.inr rfl
    · exact Or.inl rfl
  · rw [SafeIntToCublasDataType]
    simp only [CUDA_R_32F, CUDA_C_32U]
    split
    · rename_i h
      constructor
      · intro hcontra; exact absurd hcontra (by simp)
      · intro hr; omega
    · rename_i h
      simp only [not_or, not_lt] at h
      constructor
      · intro _; omega
      · intro _; rfl
  · rw [SafeIntToCublasDataType]
    split
    · exact Or.inr rfl
    · exact Or.inl rfl
